import Mathlib

/-!
Verification of the ChessChain proof-of-stake consensus core (repository
KKL199) against its natural-language specification.  The Python sources under
`src/ChessChain` (and `src/Final/ChessChain`) are shallowly embedded below:
byte strings become `List Nat` (each entry one byte), Python `str` values
become `String` (all strings handled here are ASCII, so UTF-8 encoding is the
identity on code points), dictionaries become association lists, and the
mutable community state becomes an explicit `Node` record threaded through
the handlers.  SHA-256 is implemented concretely so that every definition is
executable on concrete inputs.
-/

set_option maxRecDepth 1000000

namespace ChessChain

/-! ## Bytes and SHA-256 (`hashlib.sha256(...).digest()`) -/

/-- Truncate to a 32-bit word, the working width of SHA-256. -/
def w32 (x : Nat) : Nat := x % 4294967296

/-- Right rotation of a 32-bit word. -/
def rotr (n x : Nat) : Nat := ((x >>> n) ||| w32 (x <<< (32 - n)))

def smallSigma0 (x : Nat) : Nat := (rotr 7 x) ^^^ (rotr 18 x) ^^^ (x >>> 3)

def smallSigma1 (x : Nat) : Nat := (rotr 17 x) ^^^ (rotr 19 x) ^^^ (x >>> 10)

def bigSigma0 (x : Nat) : Nat := (rotr 2 x) ^^^ (rotr 13 x) ^^^ (rotr 22 x)

def bigSigma1 (x : Nat) : Nat := (rotr 6 x) ^^^ (rotr 11 x) ^^^ (rotr 25 x)

def chFn (x y z : Nat) : Nat := (x &&& y) ^^^ ((x ^^^ 4294967295) &&& z)

def majFn (x y z : Nat) : Nat := (x &&& y) ^^^ (x &&& z) ^^^ (y &&& z)

/-- The 64 SHA-256 round constants (FIPS 180-4, written in decimal). -/
def K256 : List Nat :=
  [1116352408, 1899447441, 3049323471, 3921009573, 961987163,
   1508970993, 2453635748, 2870763221, 3624381080, 310598401,
   607225278, 1426881987, 1925078388, 2162078206, 2614888103,
   3248222580, 3835390401, 4022224774, 264347078, 604807628,
   770255983, 1249150122, 1555081692, 1996064986, 2554220882,
   2821834349, 2952996808, 3210313671, 3336571891, 3584528711,
   113926993, 338241895, 666307205, 773529912, 1294757372,
   1396182291, 1695183700, 1986661051, 2177026350, 2456956037,
   2730485921, 2820302411, 3259730800, 3345764771, 3516065817,
   3600352804, 4094571909, 275423344, 430227734, 506948616,
   659060556, 883997877, 958139571, 1322822218, 1537002063,
   1747873779, 1955562222, 2024104815, 2227730452, 2361852424,
   2428436474, 2756734187, 3204031479, 3329325298]

/-- The SHA-256 initial hash value (FIPS 180-4, written in decimal). -/
def IV256 : List Nat :=
  [1779033703, 3144134277, 1013904242, 2773480762,
   1359893119, 2600822924, 528734635, 1541459225]

/-- SHA-256 padding: append `0x80`, zeros to 56 mod 64, then the bit length
as 8 big-endian bytes. -/
def padMessage (msg : List Nat) : List Nat :=
  let L := msg.length
  let zeros := (56 + 64 - (L + 1) % 64) % 64
  msg ++ [128] ++ List.replicate zeros 0 ++
    (List.range 8).map (fun i => ((8 * L) >>> (8 * (7 - i))) % 256)

/-- Split a byte list into 64-byte blocks (fuel-structured so that the kernel
can evaluate it; the fuel `l.length` always suffices). -/
def chunks64Aux : Nat → List Nat → List (List Nat)
  | 0, _ => []
  | _ + 1, [] => []
  | fuel + 1, x :: xs => ((x :: xs).take 64) :: chunks64Aux fuel ((x :: xs).drop 64)

/-- Split a byte list into 64-byte blocks. -/
def chunks64 (l : List Nat) : List (List Nat) := chunks64Aux l.length l

/-- Big-endian 32-bit words of a block. -/
def toWords : List Nat → List Nat
  | a :: b :: c :: d :: rest => (((a * 256 + b) * 256 + c) * 256 + d) :: toWords rest
  | _ => []

/-- Extend the 16 block words to the 64-entry message schedule. -/
def schedule (w16 : List Nat) : List Nat :=
  (List.range 48).foldl
    (fun ws _ =>
      let n := ws.length
      ws ++ [w32 (smallSigma1 (ws.getD (n - 2) 0) + ws.getD (n - 7) 0 +
                  smallSigma0 (ws.getD (n - 15) 0) + ws.getD (n - 16) 0)])
    w16

/-- One SHA-256 compression step. -/
def compressStep (st : List Nat) (kw : Nat × Nat) : List Nat :=
  match st with
  | [a, b, c, d, e, f, g, h] =>
    let t1 := w32 (h + bigSigma1 e + chFn e f g + kw.1 + kw.2)
    let t2 := w32 (bigSigma0 a + majFn a b c)
    [w32 (t1 + t2), a, b, c, w32 (d + t1), e, f, g]
  | st => st

/-- Compress one 64-byte block into the running hash state. -/
def compressBlock (h : List Nat) (block : List Nat) : List Nat :=
  let final := ((K256.zip (schedule (toWords block))).foldl compressStep h)
  (h.zip final).map (fun p => w32 (p.1 + p.2))

/-- SHA-256 digest of a byte string, as 32 bytes
(`hashlib.sha256(data).digest()`). -/
def sha256 (msg : List Nat) : List Nat :=
  ((chunks64 (padMessage msg)).foldl compressBlock IV256).foldr
    (fun w acc => ((w >>> 24) % 256) :: ((w >>> 16) % 256) :: ((w >>> 8) % 256) :: (w % 256) :: acc)
    []

/-- Big-endian integer value of a byte string (`int.from_bytes(b, 'big')`). -/
def bytesToNat (bs : List Nat) : Nat := bs.foldl (fun acc b => acc * 256 + b) 0

/-- UTF-8 bytes of an ASCII string (`s.encode('utf-8')`; every string the
consensus core hashes is ASCII, where UTF-8 is the identity on code points). -/
def strBytes (s : String) : List Nat := s.data.map Char.toNat

def hexChar (n : Nat) : Char := Char.ofNat (if n < 10 then 48 + n else 87 + n)

/-- Lowercase hex rendering of a byte string (`hashlib...hexdigest()`). -/
def hexDigest (bs : List Nat) : String :=
  String.mk (bs.foldr (fun b acc => hexChar (b / 16 % 16) :: hexChar (b % 16) :: acc) [])

/-! ## Proposer lottery (`utils/utils.py::lottery_selection`)

`lottery_selection(seed, p_id, total_stake, peers)` hashes `seed + p_id`,
then scans the peer list keeping the identity with the lowest hash value
(strictly-lower replaces), and returns whether the local identity is the
final winner.  `checking_proposer` passes the peers' ids (hex-encoded) plus
the node's own id; the `total_stake` argument is received but never read. -/

/-- `int.from_bytes(hashlib.sha256(seed + p_id).digest(), 'big')`. -/
def hashVal (seed pid : List Nat) : Nat := bytesToNat (sha256 (seed ++ pid))

/-- The peer scan of `lottery_selection`: carries `(winner_peer_id, lowest_val)`
and replaces them whenever a peer's hash value is strictly lower. -/
def lotteryLoop (seed : List Nat) : List (List Nat) → List Nat → Nat → List Nat × Nat
  | [], winner, lowest => (winner, lowest)
  | q :: rest, winner, lowest =>
    if hashVal seed q < lowest then lotteryLoop seed rest q (hashVal seed q)
    else lotteryLoop seed rest winner lowest

/-- `utils.utils.lottery_selection`.  The `total_stake` parameter is kept to
mirror the source signature; the source never reads it. -/
def lottery_selection (seed p_id : List Nat) (total_stake : Nat)
    (peers : List (List Nat)) : Bool :=
  decide ((lotteryLoop seed peers p_id (hashVal seed p_id)).1 = p_id)

/-- Modelled from the spec: the §4.5 stake-weighted sortition rule, which no
function in the source implements.  `score = uniform(hash(round_seed ||
pubkey))` mapped to `[0,1)` is `hashVal seed pid / 2^256`, so
`score < s / total_stake` is `hashVal seed pid * total_stake < s * 2^256`. -/
def sortitionSpec (seed pid : List Nat) (s total_stake : Nat) : Bool :=
  decide (hashVal seed pid * total_stake < s * 2 ^ 256)

theorem lotteryLoop_all_ge (seed : List Nat) (peers : List (List Nat))
    (w : List Nat) (lowest : Nat) (h : ∀ q ∈ peers, lowest ≤ hashVal seed q) :
    lotteryLoop seed peers w lowest = (w, lowest) := by
  induction peers with
  | nil => rfl
  | cons q rest ih =>
    have hq : ¬ hashVal seed q < lowest := not_lt.mpr (h q (List.mem_cons_self q rest))
    simp only [lotteryLoop, if_neg hq]
    exact ih (fun p hp => h p (List.mem_cons_of_mem q hp))

theorem lotteryLoop_below (seed : List Nat) (peers : List (List Nat)) :
    ∀ (w pid : List Nat) (lowest : Nat), w ≠ pid → lowest < hashVal seed pid →
    (lotteryLoop seed peers w lowest).1 ≠ pid := by
  induction peers with
  | nil => intro w pid lowest hw _; exact hw
  | cons q rest ih =>
    intro w pid lowest hw hlow
    by_cases hq : hashVal seed q < lowest
    · simp only [lotteryLoop, if_pos hq]
      have hqpid : q ≠ pid := by
        intro he; rw [he] at hq; exact absurd (hq.trans hlow) (lt_irrefl _)
      exact ih q pid (hashVal seed q) hqpid (hq.trans hlow)
    · simp only [lotteryLoop, if_neg hq]
      exact ih w pid lowest hw hlow

theorem lotteryLoop_start_self (seed pid : List Nat) (peers : List (List Nat)) :
    (lotteryLoop seed peers pid (hashVal seed pid)).1 = pid ↔
      ∀ q ∈ peers, hashVal seed pid ≤ hashVal seed q := by
  induction peers with
  | nil => simp [lotteryLoop]
  | cons q rest ih =>
    by_cases hq : hashVal seed q < hashVal seed pid
    · simp only [lotteryLoop, if_pos hq]
      constructor
      · intro hres
        have hqpid : q ≠ pid := by
          intro he; rw [he] at hq; exact absurd hq (lt_irrefl _)
        exact absurd hres (lotteryLoop_below seed rest q pid (hashVal seed q) hqpid hq)
      · intro hall
        exact absurd (hall q (List.mem_cons_self q rest)) (not_le.mpr hq)
    · simp only [lotteryLoop, if_neg hq]
      rw [ih]
      constructor
      · intro hall p hp
        rcases List.mem_cons.mp hp with he | hm
        · rw [he]; exact not_lt.mp hq
        · exact hall p hm
      · intro hall p hp
        exact hall p (List.mem_cons_of_mem q hp)

/-! ## Merkle tree (`utils/merkle.py::MerkleTree`)

`MerkleTree.__init__` stores `Node(sha256(b''), None, None)` as the root of
an empty tree and otherwise calls `build_tree(items, 0, len(items) - 1)`,
which at range `[l, r]` with `l == r` makes a leaf whose hash IS the raw item
(the code assumes items are already hashes) and otherwise splits at
`m = (l + r) >> 1` and hashes the two children's concatenation.  Since
`(l + r) / 2 - l + 1 = ((r - l) / 2) + 1 = ceil(size / 2)`, the subtree shape
depends only on the range's size, so the index recursion is embedded as a
`take`/`drop` split at `k = ceil(n / 2) = (n + 1) / 2`.  The class has no
`get_root` method in the source even though every caller and the test-suite
use one; per the spec (§4.1, the root digest) it is modelled as returning the
root node's hash, i.e. the values computed here. -/

/-- `MerkleTree.build_tree` on a nonempty item list (fuel-structured;
`items.length` fuel always suffices since each recursive call strictly
shrinks the list). -/
def buildTreeAux : Nat → List (List Nat) → List Nat
  | 0, _ => []
  | _ + 1, [] => []
  | _ + 1, [x] => x
  | fuel + 1, x :: y :: rest =>
    let xs := x :: y :: rest
    let k := (xs.length + 1) / 2
    sha256 (buildTreeAux fuel (xs.take k) ++ buildTreeAux fuel (xs.drop k))

/-- The root hash of `MerkleTree(items)` as the source computes it:
`sha256(b'')` for an empty list, otherwise `build_tree` over the raw items. -/
def merkle_root (items : List (List Nat)) : List Nat :=
  if items.isEmpty then sha256 [] else buildTreeAux items.length items

/-- One level-up step of the Merkle construction that the specification
(§4.1) and the repository's own tests (`tests/test_merkle.py`) describe:
adjacent pairs are hashed, and an odd trailing node is paired with itself. -/
def hashPairs : List (List Nat) → List (List Nat)
  | [] => []
  | [x] => [sha256 (x ++ x)]
  | x :: y :: rest => sha256 (x ++ y) :: hashPairs rest

/-- Collapse levels until a single root remains (fuel-structured; each level
at least halves, so `length` fuel suffices). -/
def reduceLevelsAux : Nat → List (List Nat) → List Nat
  | 0, _ => []
  | _ + 1, [] => []
  | _ + 1, [x] => x
  | fuel + 1, x :: y :: rest => reduceLevelsAux fuel (hashPairs (x :: y :: rest))

/-- The Merkle root as the specification and `tests/test_merkle.py` define
it: leaves are the digests of the inputs, internal nodes are
`digest(left || right)`, an odd level duplicates its last node, and the
empty input yields the digest of the empty string. -/
def merkleRootSpec (items : List (List Nat)) : List Nat :=
  if items.isEmpty then sha256 []
  else reduceLevelsAux items.length (items.map sha256)

/-! ## Data model (`models/models.py`)

Python `str` fields stay `String`; hex strings are kept as text exactly as
the source passes them around.  `transaction_hashes_str` is only ever read
through the `transaction_hashes` property (empty string ↦ `[]`, else
`split(",")`), so blocks carry the list directly. -/

structure Block where
  roundSeed : String
  txs : List String
  merkleRoot : String
  proposerPub : String
  signature : String
  prev : String
  ts : Nat
deriving DecidableEq, Repr

structure Tx where
  matchId : String
  winner : String
  movesHash : String
  nonce : String
  proposerPub : String
  signature : String
deriving DecidableEq, Repr

structure Vote where
  roundSeed : String
  merkleRoot : String
  proposerPub : String
  validatorPub : String
  vote : Bool
  signature : String
deriving DecidableEq, Repr

structure Confirmation where
  roundSeed : String
  merkleRoot : String
  proposerPub : String
  ts : Nat
  sigCount : Nat
  confirmerPub : String
  signature : String
deriving DecidableEq, Repr

structure SyncRequest where
  blockHash : String
  count : Nat
deriving DecidableEq, Repr

/-- Result of a cryptography call, abstracting `Ed25519PublicKey.verify`:
`ok` = verification passed, `invalid` = `InvalidSignature` raised, `err` =
any other exception (malformed hex, bad key bytes, ...).  Both failure kinds
are modelled because the handlers catch them in separate `except` arms. -/
inductive VRes | ok | invalid | err
deriving DecidableEq, Repr

/-! ## Node state (`ChessCommunity` fields)

Dictionaries and LMDB sub-databases become association lists; collections
whose stored values never matter to the claims (`mempool`, the
`transactions` and `processed_transactions` databases, `pending_transactions`,
`block_confirmations`, `processed_blocks`) are modelled by their key sets.
`head = ""` models `current_chain_head is None` (Python treats `""` and
`None` alike here: both are falsy). -/

structure Node where
  store : List (String × Block)
  head : String
  mempool : List String
  txStore : List String
  processed : List String
  pending : List String
  confirmations : List String
  votes : List (String × List (String × Bool))
  stakes : List (String × Nat)
  processedBlocks : List String
  proposedStore : List (String × Block)
  pendingSync : List (String × Block)
deriving DecidableEq, Repr

/-! ### Association-list and set helpers -/

def lookupA {α : Type} (l : List (String × α)) (k : String) : Option α :=
  (l.find? (fun kv => kv.1 == k)).map (fun kv => kv.2)

/-- Dictionary/db write: the new binding shadows any old one. -/
def putA {α : Type} (l : List (String × α)) (k : String) (v : α) : List (String × α) :=
  (k, v) :: l.filter (fun kv => kv.1 != k)

def insertSet (l : List String) (x : String) : List String :=
  if x ∈ l then l else x :: l

def removeAll (l : List String) (x : String) : List String :=
  l.filter (fun y => y != x)

/-- `self.stakes.get(pubkey, 0)`. -/
def stakeOf (stakes : List (String × Nat)) (k : String) : Nat := (lookupA stakes k).getD 0

/-- The greatest key of an LMDB database (`cursor.last()`); keys are ordered
lexicographically, `""` when the database is empty. -/
def lastKeyLex {α : Type} (store : List (String × α)) : String :=
  store.foldl (fun acc kv => if acc < kv.1 then kv.1 else acc) ""

/-! ### Constants (`community0.py` class attributes) -/

def MIN_STAKE : Nat := 10

def MAX_BLOCK_AGE : Nat := 3600

def REWARD_AMOUNT : Nat := 2

/-- `QUORUM_RATIO = 0.67` as an exact rational `67/100`: the comparison
`approving / total >= 0.67` (Python binary floating point) is modelled as
`67 * total <= 100 * approving`.  The two agree at every integer stake pair
whose quotient is not within one double ulp (≈ 4·10⁻¹⁷) of `0.67`, which
requires voting stakes beyond 10¹⁵ to violate. -/
def QUORUM_NUM : Nat := 67

/-- `"0" * 64`, the fixed genesis predecessor hash. -/
def zeroHash : String :=
  "0000000000000000000000000000000000000000000000000000000000000000"

/-! ### Canonical strings and hashes -/

/-- Candidate-block identity `f"{round_seed_hex}:{merkle_root}"`. -/
def blockId (b : Block) : String := b.roundSeed ++ ":" ++ b.merkleRoot

/-- The signed/hashed block string
`f"{round_seed_hex}:{merkle_root}:{proposer_pubkey_hex}:{previous_block_hash}:{timestamp}"`. -/
def canonicalBlockString (b : Block) : String :=
  b.roundSeed ++ ":" ++ b.merkleRoot ++ ":" ++ b.proposerPub ++ ":" ++ b.prev ++ ":" ++
    Nat.repr b.ts

/-- Ledger key of a block (`add_confirmed_block`): sha256 hexdigest of the
canonical block string, always recomputed. -/
def blockHashHex (b : Block) : String := hexDigest (sha256 (strBytes (canonicalBlockString b)))

/-- The signed transaction string
`f"{match_id}:{winner}:{nonce}:{proposer_pubkey_hex}"`. -/
def txCanonical (t : Tx) : String :=
  t.matchId ++ ":" ++ t.winner ++ ":" ++ t.nonce ++ ":" ++ t.proposerPub

/-- The signed vote string (`on_validator_vote`). -/
def voteDataOf (p : Vote) : String :=
  p.roundSeed ++ ":" ++ p.merkleRoot ++ ":" ++ p.proposerPub ++ ":" ++ p.validatorPub ++ ":" ++
    (if p.vote then "true" else "false")

/-- The signed confirmation string (`check_consensus` / `on_block_confirmation`). -/
def confDataOf (c : Confirmation) : String :=
  c.roundSeed ++ ":" ++ c.merkleRoot ++ ":" ++ c.proposerPub ++ ":" ++ Nat.repr c.ts ++ ":" ++
    Nat.repr c.sigCount

/-- `MerkleTree(items).get_root()` rendered as the hex text the block fields
carry (`get_root` itself is spec-modelled, see above). -/
def get_root_hex (items : List (List Nat)) : String := hexDigest (merkle_root items)

/-- The canonical empty-tree root, `sha256(b'')`. -/
def emptyRootHex : String := get_root_hex []

/-! ## Ledger store (`community/blockchain.py`) -/

/-- `Blockchain.get_latest_block_hash`: the cached `current_chain_head` if
set, otherwise the last (greatest) key of the `confirmed_blocks` database.
The source also caches the scanned value; callers below re-install the
returned value into `head` to model that write. -/
def getLatest (st : Node) : String :=
  if st.head = "" then lastKeyLex st.store else st.head

/-- The loop of `Blockchain.get_chain_from_hash`, fuel-structured: the fuel
plays the role of `max_blocks - len(chain)`, which the loop guard tests
before each lookup.  Walks `previous_block_hash` links from `current`,
stopping silently at a missing block, at the empty hash, and appending the
fixed zero hash (then stopping) when a block's predecessor is genesis. -/
def walkChain (store : List (String × Block)) : Nat → String → List String
  | 0, _ => []
  | fuel + 1, current =>
    if current = "" then []
    else
      match lookupA store current with
      | none => []
      | some b =>
        if b.prev = zeroHash then [current, zeroHash]
        else current :: walkChain store fuel b.prev

/-- `Blockchain.get_chain_from_hash(start_hash, max_blocks)`. -/
def get_chain_from_hash (store : List (String × Block)) (start : String)
    (maxBlocks : Nat) : List String :=
  walkChain store maxBlocks start

/-! ## Mempool and transaction registry (`community/transaction.py`) -/

/-- `Transaction.on_transaction`: verify the signature over the canonical
transaction string (any failure drops the message), skip silently if the
nonce is already in mempool or the `transactions` database, otherwise add to
mempool and persist.  (The source adds to mempool first and rolls the
mempool entry back if the database write throws; the store is modelled as
infallible, so the net effect is both insertions.) -/
def on_transaction (verify : String → String → String → VRes) (st : Node) (t : Tx) : Node :=
  match verify t.proposerPub t.signature (txCanonical t) with
  | VRes.ok =>
    if t.nonce ∈ st.mempool ∨ t.nonce ∈ st.txStore then st
    else { st with mempool := insertSet st.mempool t.nonce,
                   txStore := insertSet st.txStore t.nonce }
  | _ => st

/-- One step of `mark_transactions_as_processed`: record the processed
marker, drop the nonce from `pending_transactions` and from the mempool. -/
def markProcessedOne (st : Node) (n : String) : Node :=
  { st with processed := insertSet st.processed n,
            pending := removeAll st.pending n,
            mempool := removeAll st.mempool n }

def mark_transactions_as_processed (st : Node) (ns : List String) : Node :=
  ns.foldl markProcessedOne st

/-- One step of the reversion loop of `reprocess_transactions`: delete the
processed marker, and put the transaction back into the mempool if its data
is still in the `transactions` database. -/
def revertOne (st : Node) (n : String) : Node :=
  let st1 := { st with processed := removeAll st.processed n }
  if n ∈ st1.txStore then { st1 with mempool := insertSet st1.mempool n } else st1

/-- One step of the application loop of `reprocess_transactions`: set the
processed marker and drop the nonce from the mempool. -/
def applyOne (st : Node) (n : String) : Node :=
  { st with processed := insertSet st.processed n,
            mempool := removeAll st.mempool n }

/-- The first hash of the new chain that also lies on the old chain
(`reprocess_transactions`'s common-ancestor scan). -/
def findCommonAncestor (oldChain newChain : List String) : Option String :=
  newChain.find? (fun h => oldChain.contains h)

/-- All transaction nonces of the blocks of `chain` strictly before the
common ancestor (blocks missing from the store contribute nothing). -/
def suffixNonces (store : List (String × Block)) (chain : List String)
    (anc : String) : List String :=
  (((chain.takeWhile (fun h => h != anc)).filterMap (lookupA store)).map Block.txs).flatten

/-- `Transaction.reprocess_transactions(old_chain, new_chain)`. -/
def reprocess_transactions (st : Node) (oldChain newChain : List String) : Node :=
  match findCommonAncestor oldChain newChain with
  | none => st
  | some anc =>
    let toRevert := suffixNonces st.store oldChain anc
    let toApply := suffixNonces st.store newChain anc
    let st1 := toRevert.foldl revertOne st
    toApply.foldl applyOne st1

/-! ## Fork resolution and sync (`blockchain.py::resolve_fork`, `sync.py`) -/

/-- `abs(time.time() - proposed_block.timestamp)` over naturals. -/
def timeDiff (now ts : Nat) : Nat := if ts ≤ now then now - ts else ts - now

/-- `Blockchain.resolve_fork`: reject stale proposals, walk the alternative
chain from the proposal's predecessor and the current chain from the local
head (both bounded by 100), and switch — reprocess transactions, then point
`current_chain_head` at the alternative tip — only when the alternative is
strictly longer. -/
def resolve_fork (now : Nat) (st : Node) (b : Block) : Node × Bool :=
  if MAX_BLOCK_AGE < timeDiff now b.ts then (st, false)
  else
    let altChain := get_chain_from_hash st.store b.prev 100
    if altChain.isEmpty then (st, false)
    else
      let latest := getLatest st
      let st1 := { st with head := latest }
      let myChain := get_chain_from_hash st1.store latest 100
      if myChain.length < altChain.length then
        let st2 := reprocess_transactions st1 myChain altChain
        ({ st2 with head := b.prev }, true)
      else (st1, false)

/-- `Sync.resolve_fork_with_retry`: on failed resolution, loop over the
currently connected peers, recording the proposal in
`pending_sync_requests[block.previous_block_hash]` and sending a
`BlockSyncRequest` (default `count=10`) to each peer; the recording happens
inside the per-peer loop, exactly as in the source. -/
def resolve_fork_with_retry (now : Nat) (st : Node) (b : Block) (peers : List String) :
    Node × List (String × SyncRequest) × Bool :=
  let r := resolve_fork now st b
  if r.2 then (r.1, [], true)
  else
    let st2 := peers.foldl (fun s _ => { s with pendingSync := putA s.pendingSync b.prev b }) r.1
    (st2, peers.map (fun p => (p, ⟨b.prev, 10⟩)), false)

/-! ## Vote and quorum engine (`community/consensus.py`) -/

/-- Stake tally of `check_consensus`: `(voting_stake, approving_stake)` over
the votes recorded so far, each voter weighted by `stakes.get(voter, 0)`. -/
def tally (stakes : List (String × Nat)) (votes : List (String × Bool)) : Nat × Nat :=
  votes.foldl
    (fun acc v =>
      let s := stakeOf stakes v.1
      (acc.1 + s, if v.2 then acc.2 + s else acc.2))
    (0, 0)

/-- The recorded votes for a block id (`block_votes.get(id, {})`). -/
def votesFor (st : Node) (id : String) : List (String × Bool) := (lookupA st.votes id).getD []

/-- `total_stake > 0 and approving_stake / total_stake >= QUORUM_RATIO`. -/
def quorumReached (total approving : Nat) : Bool :=
  decide (0 < total) && decide (QUORUM_NUM * total ≤ 100 * approving)

/-- `Consensus.reward_proposer`: credit the fixed reward of 2 stake. -/
def reward_proposer (st : Node) (pub : String) : Node :=
  { st with stakes := putA st.stakes pub (stakeOf st.stakes pub + REWARD_AMOUNT) }

/-- `Blockchain.add_confirmed_block`: store the block under its recomputed
hash, mark its transaction nonces processed (removing them from
`pending_transactions` and the mempool) and credit the proposer reward.
This `ChessChain` version does not move `current_chain_head`. -/
def add_confirmed_block (st : Node) (b : Block) : Node :=
  let st1 := { st with store := putA st.store (blockHashHex b) b }
  let st2 := mark_transactions_as_processed st1 b.txs
  reward_proposer st2 b.proposerPub

/-- The confirmation record `check_consensus` builds and signs when quorum
is reached. -/
def buildConfirmation (sign : String → String) (myPub : String) (b : Block)
    (votesCount : Nat) : Confirmation :=
  let c0 : Confirmation :=
    { roundSeed := b.roundSeed, merkleRoot := b.merkleRoot, proposerPub := b.proposerPub,
      ts := b.ts, sigCount := votesCount, confirmerPub := myPub, signature := "" }
  { c0 with signature := sign (confDataOf c0) }

/-- `Consensus.check_consensus`: skip ids that already have a confirmation or
no vote set; otherwise tally the voters' stake and, when
`voting_stake > 0 ∧ approving/voting ≥ QUORUM_RATIO`, record the signed
confirmation, broadcast it to every known peer, and commit via
`add_confirmed_block`.  Returns (state, finalized?, broadcast list). -/
def check_consensus (sign : String → String) (myPub : String) (peers : List String)
    (st : Node) (b : Block) : Node × Bool × List (String × Confirmation) :=
  let id := blockId b
  if id ∈ st.confirmations then (st, false, [])
  else
    match lookupA st.votes id with
    | none => (st, false, [])
    | some vs =>
      let ta := tally st.stakes vs
      if quorumReached ta.1 ta.2 then
        let conf := buildConfirmation sign myPub b vs.length
        let st1 := { st with confirmations := insertSet st.confirmations id }
        let st2 := add_confirmed_block st1 b
        (st2, true, peers.map (fun p => (p, conf)))
      else (st, false, [])

/-- Record `block_votes[id][voter] = v` (dictionary overwrite). -/
def updateVotes (votes : List (String × List (String × Bool))) (id voter : String)
    (v : Bool) : List (String × List (String × Bool)) :=
  match lookupA votes id with
  | none => (id, [(voter, v)]) :: votes
  | some vs => putA votes id (putA vs voter v)

/-- `Consensus.send_validator_vote`: skip ids already in `processed_blocks`;
otherwise record the node's own approve vote, gossip it (no state effect),
mark the id processed and run `check_consensus`.  Returns (state, voted?). -/
def send_validator_vote (sign : String → String) (myPub : String) (peers : List String)
    (st : Node) (b : Block) : Node × Bool :=
  let id := blockId b
  if id ∈ st.processedBlocks then (st, false)
  else
    let st1 := { st with votes := updateVotes st.votes id myPub true }
    let st2 := { st1 with processedBlocks := insertSet st1.processedBlocks id }
    ((check_consensus sign myPub peers st2 b).1, true)

/-- Python's `str.startswith`, modelled character-wise.  (It agrees with
`String.startsWith`; the character-list form is used because it evaluates
by kernel reduction on concrete inputs.) -/
def strStartsWith (s pre : String) : Bool := pre.data.isPrefixOf s.data

/-- The `proposed_blocks` cache scan shared by `on_validator_vote` and
`on_block_confirmation`: the first entry whose key starts with
`f"{round_seed_hex}:"` and whose block carries the wanted Merkle root. -/
def findProposed (store : List (String × Block)) (seed root : String) : Option Block :=
  (store.find? (fun kb => strStartsWith kb.1 (seed ++ ":") && kb.2.merkleRoot == root)).map
    (fun kb => kb.2)

/-- `Consensus.on_validator_vote`: drop on any signature failure; record the
vote; forward it (no state effect); when the voted block names this node as
proposer, look the block up in the `proposed_blocks` cache and re-run
`check_consensus` on it. -/
def on_validator_vote (verify : String → String → String → VRes) (sign : String → String)
    (myPub : String) (peers : List String) (st : Node) (p : Vote) : Node :=
  let id := p.roundSeed ++ ":" ++ p.merkleRoot
  match verify p.validatorPub p.signature (voteDataOf p) with
  | VRes.ok =>
    let st1 := { st with votes := updateVotes st.votes id p.validatorPub p.vote }
    if p.proposerPub = myPub then
      match findProposed st1.proposedStore p.roundSeed p.merkleRoot with
      | some b => (check_consensus sign myPub peers st1 b).1
      | none => st1
    else st1
  | _ => st

/-- `Consensus.on_block_confirmation`: drop on any signature failure; ignore
ids that already have a confirmation; otherwise record the confirmation,
forward it (no state effect), and commit the matching cached proposed block
if one exists. -/
def on_block_confirmation (verify : String → String → String → VRes)
    (st : Node) (c : Confirmation) : Node :=
  let id := c.roundSeed ++ ":" ++ c.merkleRoot
  match verify c.confirmerPub c.signature (confDataOf c) with
  | VRes.ok =>
    if id ∈ st.confirmations then st
    else
      let st1 := { st with confirmations := insertSet st.confirmations id }
      match findProposed st1.proposedStore c.roundSeed c.merkleRoot with
      | some b => add_confirmed_block st1 b
      | none => st1
  | _ => st

/-! ## Block validation, receiver path (`community/proposer.py::on_proposed_block`) -/

inductive BlockOutcome
  | forkDeferred | dropInvalidSig | dropSigError | dropHeadMismatch
  | dropEmptyRoot | dropBadRoot | voted | lowStake
deriving DecidableEq, Repr

/-- The eligibility gate at the end of validation: vote when the node's own
stake reaches `MIN_STAKE` (the node's stake is always present — `__init__`
stakes `INITIAL_STAKE` — so the dictionary index is modelled by the
defaulted lookup). -/
def stakeGate (sign : String → String) (myPub : String) (peers : List String)
    (st : Node) (p : Block) : Node × BlockOutcome :=
  if MIN_STAKE ≤ stakeOf st.stakes myPub then
    ((send_validator_vote sign myPub peers st p).1, BlockOutcome.voted)
  else (st, BlockOutcome.lowStake)

/-- The body of `on_proposed_block` after the fork stage: signature
verification (both failure kinds drop), the re-fetched head comparison
inside the `try` block, then the Merkle-root check — the canonical empty
root for an empty nonce list, a recomputation otherwise — and finally the
stake gate. -/
def validateBody (verify : String → String → String → VRes) (sign : String → String)
    (myPub : String) (peers : List String) (st : Node) (p : Block) : Node × BlockOutcome :=
  match verify p.proposerPub p.signature (canonicalBlockString p) with
  | VRes.invalid => (st, BlockOutcome.dropInvalidSig)
  | VRes.err => (st, BlockOutcome.dropSigError)
  | VRes.ok =>
    let st1 := { st with head := getLatest st }
    if p.prev ≠ st1.head then (st1, BlockOutcome.dropHeadMismatch)
    else if p.txs.isEmpty then
      if p.merkleRoot ≠ emptyRootHex then (st1, BlockOutcome.dropEmptyRoot)
      else stakeGate sign myPub peers st1 p
    else
      if get_root_hex (p.txs.map strBytes) = p.merkleRoot then stakeGate sign myPub peers st1 p
      else (st1, BlockOutcome.dropBadRoot)

/-- `Proposer.on_proposed_block`: if the declared predecessor does not match
the local head, run fork resolution with sync retry and stop (`forkDeferred`)
when it fails; then run the validation body. -/
def on_proposed_block (verify : String → String → String → VRes) (sign : String → String)
    (myPub : String) (now : Nat) (peers : List String) (st : Node) (p : Block) :
    Node × BlockOutcome :=
  let st0 := { st with head := getLatest st }
  if p.prev ≠ st0.head then
    let r := resolve_fork_with_retry now st0 p peers
    if r.2.2 then validateBody verify sign myPub peers r.1 p
    else (r.1, BlockOutcome.forkDeferred)
  else validateBody verify sign myPub peers st0 p

/-- The §4.6 receiver checklist exactly as the specification orders it:
1. predecessor mismatch → fork resolution, aborting when inconclusive;
2. proposer signature; 3. Merkle root (the canonical empty root for an empty
list); 4. the `MIN_STAKE` gate deciding whether a vote is emitted.  Unlike
the source it carries no second head comparison. -/
def validationSpec (verify : String → String → String → VRes) (myPub : String)
    (now : Nat) (peers : List String) (st : Node) (p : Block) : BlockOutcome :=
  let st0 := { st with head := getLatest st }
  let afterFork : Option Node :=
    if p.prev ≠ st0.head then
      let r := resolve_fork_with_retry now st0 p peers
      if r.2.2 then some r.1 else none
    else some st0
  match afterFork with
  | none => BlockOutcome.forkDeferred
  | some st1 =>
    match verify p.proposerPub p.signature (canonicalBlockString p) with
    | VRes.invalid => BlockOutcome.dropInvalidSig
    | VRes.err => BlockOutcome.dropSigError
    | VRes.ok =>
      let rootOk :=
        if p.txs.isEmpty then p.merkleRoot = emptyRootHex
        else get_root_hex (p.txs.map strBytes) = p.merkleRoot
      if rootOk then
        if MIN_STAKE ≤ stakeOf st1.stakes myPub then BlockOutcome.voted
        else BlockOutcome.lowStake
      else if p.txs.isEmpty then BlockOutcome.dropEmptyRoot
      else BlockOutcome.dropBadRoot

/-- A hash list is chained when every element looks up to a block whose
`previous_block_hash` is the next element. -/
def chainLinked (store : List (String × Block)) : List String → Prop
  | [] => True
  | [_] => True
  | h :: h' :: t => (∃ b, lookupA store h = some b ∧ b.prev = h') ∧ chainLinked store (h' :: t)

/-! ### Concrete instances used by counterexamples and witnesses -/

/-- An empty node state, the base the instances below override. -/
def emptyNode : Node :=
  { store := [], head := "", mempool := [], txStore := [], processed := [], pending := [],
    confirmations := [], votes := [], stakes := [], processedBlocks := [], proposedStore := [],
    pendingSync := [] }

/-- A candidate block with id `"s:r"`. -/
def blockSR : Block :=
  { roundSeed := "s", txs := ["t"], merkleRoot := "r", proposerPub := "pp", signature := "",
    prev := zeroHash, ts := 0 }

/-- Three voters of stake 10 each. -/
def stakes10 : List (String × Nat) := [("v1", 10), ("v2", 10), ("v3", 10)]

/-- Quorum-boundary state: voters of stakes 10/10/10 voted yes/yes/no on
`"s:r"`, an approval ratio of exactly 20/30 = 2/3. -/
def nodeTwoThirds : Node :=
  { emptyNode with votes := [("s:r", [("v1", true), ("v2", true), ("v3", false)])],
                   stakes := stakes10 }

/-- 2-approve/1-silent state: only `v1` and `v2` (stakes 10/10/10) voted,
both approving. -/
def nodeTwoSilentOne : Node :=
  { emptyNode with votes := [("s:r", [("v1", true), ("v2", true)])], stakes := stakes10 }

/-- A one-block ledger whose block's predecessor is genesis. -/
def storeOneBlock : List (String × Block) :=
  [("aa", { roundSeed := "g", txs := ["t0"], merkleRoot := "m", proposerPub := "pp",
            signature := "", prev := zeroHash, ts := 0 })]

/-- Fork-witness ledger: genesis child `"aa"`, a current chain `"bb" → "aa"`
carrying nonce `"t1"`, and a longer alternative `"c2" → "c1" → "aa"` carrying
`"u2"`, `"u1"`. -/
def storeFork : List (String × Block) :=
  [("aa", { roundSeed := "g", txs := ["t0"], merkleRoot := "m", proposerPub := "pp",
            signature := "", prev := zeroHash, ts := 0 }),
   ("bb", { roundSeed := "h1", txs := ["t1"], merkleRoot := "m1", proposerPub := "pp",
            signature := "", prev := "aa", ts := 0 }),
   ("c1", { roundSeed := "h2", txs := ["u1"], merkleRoot := "m2", proposerPub := "pp",
            signature := "", prev := "aa", ts := 0 }),
   ("c2", { roundSeed := "h3", txs := ["u2"], merkleRoot := "m3", proposerPub := "pp",
            signature := "", prev := "c1", ts := 0 })]

/-- Node sitting on head `"bb"` of `storeFork`, with both chains' nonces
processed and every transaction body still stored. -/
def nodeFork : Node :=
  { emptyNode with store := storeFork, head := "bb",
                   txStore := ["t0", "t1", "u1", "u2"], processed := ["t0", "t1"] }

/-- A proposal extending the alternative tip `"c2"`. -/
def blockOnC2 : Block :=
  { roundSeed := "h4", txs := ["w1"], merkleRoot := "m4", proposerPub := "pp", signature := "",
    prev := "c2", ts := 0 }

/-- A node with a nonempty head whose ledger does not contain `"c9"`. -/
def nodeNoC9 : Node :=
  { emptyNode with store := storeOneBlock, head := "aa" }

/-- A proposal referencing the unknown predecessor `"c9"`. -/
def blockOnC9 : Block :=
  { roundSeed := "h5", txs := ["w2"], merkleRoot := "m5", proposerPub := "pp", signature := "",
    prev := "c9", ts := 0 }

/-- A confirmation (resp. vote) for block id `"s:r"`. -/
def confSR : Confirmation :=
  { roundSeed := "s", merkleRoot := "r", proposerPub := "pp", ts := 0, sigCount := 2,
    confirmerPub := "cc", signature := "sg" }

def voteSR : Vote :=
  { roundSeed := "s", merkleRoot := "r", proposerPub := "me", validatorPub := "v1",
    vote := true, signature := "sg" }

/-- State in which `"s:r"` is already finalized: the confirmation is
recorded, the block sits in the ledger and in the proposed-block cache, its
nonce is processed, and the proposer was rewarded. -/
def nodeFinalized : Node :=
  { emptyNode with confirmations := ["s:r"],
                   store := [(blockHashHex { blockSR with proposerPub := "me" },
                              { blockSR with proposerPub := "me" })],
                   proposedStore := [("s:me", { blockSR with proposerPub := "me" })],
                   processed := ["t"],
                   votes := [("s:r", [("v1", true), ("v2", true)])],
                   stakes := stakes10 }

/-- An always-accepting and an always-rejecting signature oracle, and a
constant signing oracle, for witnesses. -/
def verifyOk : String → String → String → VRes := fun _ _ _ => VRes.ok

def verifyBad : String → String → String → VRes := fun _ _ _ => VRes.invalid

def signNull : String → String := fun _ => "sig"

/-- A transaction with nonce `"n1"`. -/
def txN1 : Tx :=
  { matchId := "m1", winner := "w", movesHash := "mh", nonce := "n1", proposerPub := "pp",
    signature := "sg" }

/-- An empty-transaction-list proposal on top of `nodeNoC9`'s head `"aa"`,
carrying the canonical empty Merkle root. -/
def emptyBlockOnAA : Block :=
  { roundSeed := "h6", txs := [], merkleRoot := emptyRootHex, proposerPub := "pp",
    signature := "", prev := "aa", ts := 0 }

/-- `nodeNoC9` with the local validator staked above `MIN_STAKE`. -/
def nodeStaked : Node := { nodeNoC9 with stakes := [("me", 120)] }

/-! ## Helper lemmas about the set and fold operations -/

theorem mem_insertSet (l : List String) (x y : String) :
    y ∈ insertSet l x ↔ y = x ∨ y ∈ l := by
  unfold insertSet
  split
  · rename_i hx
    constructor
    · exact Or.inr
    · rintro (rfl | hy)
      · exact hx
      · exact hy
  · exact List.mem_cons

theorem mem_removeAll (l : List String) (x y : String) :
    y ∈ removeAll l x ↔ y ∈ l ∧ y ≠ x := by
  unfold removeAll
  rw [List.mem_filter]
  simp [bne_iff_ne]

theorem revertOne_processed (st : Node) (n : String) :
    (revertOne st n).processed = removeAll st.processed n := by
  unfold revertOne; dsimp only; split <;> rfl

theorem revertOne_mempool (st : Node) (n : String) :
    (revertOne st n).mempool = if n ∈ st.txStore then insertSet st.mempool n else st.mempool := by
  unfold revertOne; dsimp only; split <;> simp_all

theorem revertOne_frame (st : Node) (n : String) :
    (revertOne st n).txStore = st.txStore ∧ (revertOne st n).store = st.store ∧
    (revertOne st n).head = st.head ∧ (revertOne st n).stakes = st.stakes ∧
    (revertOne st n).votes = st.votes ∧ (revertOne st n).confirmations = st.confirmations ∧
    (revertOne st n).pending = st.pending := by
  unfold revertOne; dsimp only; split <;> simp_all

theorem foldl_revertOne_txStore (L : List String) (st : Node) :
    (L.foldl revertOne st).txStore = st.txStore := by
  induction L generalizing st with
  | nil => rfl
  | cons a L ih => rw [List.foldl_cons, ih, (revertOne_frame st a).1]

theorem foldl_revertOne_processed (L : List String) (st : Node) (n : String) :
    n ∈ (L.foldl revertOne st).processed ↔ n ∈ st.processed ∧ n ∉ L := by
  induction L generalizing st with
  | nil => simp
  | cons a L ih =>
    rw [List.foldl_cons, ih, revertOne_processed, mem_removeAll]
    simp only [List.mem_cons]
    tauto

theorem foldl_revertOne_mempool (L : List String) (st : Node) (n : String) :
    n ∈ (L.foldl revertOne st).mempool ↔
      n ∈ st.mempool ∨ (n ∈ L ∧ n ∈ st.txStore) := by
  induction L generalizing st with
  | nil => simp
  | cons a L ih =>
    rw [List.foldl_cons, ih, (revertOne_frame st a).1, revertOne_mempool]
    by_cases ha : a ∈ st.txStore
    · rw [if_pos ha, mem_insertSet]
      simp only [List.mem_cons]
      constructor
      · rintro ((rfl | hm) | ⟨hL, hts⟩)
        · exact Or.inr ⟨Or.inl rfl, ha⟩
        · exact Or.inl hm
        · exact Or.inr ⟨Or.inr hL, hts⟩
      · rintro (hm | ⟨(rfl | hL), hts⟩)
        · exact Or.inl (Or.inr hm)
        · exact Or.inl (Or.inl rfl)
        · exact Or.inr ⟨hL, hts⟩
    · rw [if_neg ha]
      simp only [List.mem_cons]
      constructor
      · rintro (hm | ⟨hL, hts⟩)
        · exact Or.inl hm
        · exact Or.inr ⟨Or.inr hL, hts⟩
      · rintro (hm | ⟨(rfl | hL), hts⟩)
        · exact Or.inl hm
        · exact absurd hts ha
        · exact Or.inr ⟨hL, hts⟩

theorem applyOne_frame (st : Node) (n : String) :
    (applyOne st n).txStore = st.txStore ∧ (applyOne st n).store = st.store ∧
    (applyOne st n).head = st.head ∧ (applyOne st n).stakes = st.stakes ∧
    (applyOne st n).votes = st.votes ∧ (applyOne st n).confirmations = st.confirmations ∧
    (applyOne st n).pending = st.pending := by
  unfold applyOne; simp

theorem foldl_applyOne_processed (L : List String) (st : Node) (n : String) :
    n ∈ (L.foldl applyOne st).processed ↔ n ∈ st.processed ∨ n ∈ L := by
  induction L generalizing st with
  | nil => simp
  | cons a L ih =>
    rw [List.foldl_cons, ih]
    show n ∈ insertSet st.processed a ∨ n ∈ L ↔ _
    rw [mem_insertSet]
    simp only [List.mem_cons]
    tauto

theorem foldl_applyOne_mempool (L : List String) (st : Node) (n : String) :
    n ∈ (L.foldl applyOne st).mempool ↔ n ∈ st.mempool ∧ n ∉ L := by
  induction L generalizing st with
  | nil => simp
  | cons a L ih =>
    rw [List.foldl_cons, ih]
    show n ∈ removeAll st.mempool a ∧ n ∉ L ↔ _
    rw [mem_removeAll]
    simp only [List.mem_cons]
    tauto

theorem foldl_applyOne_head (L : List String) (st : Node) :
    (L.foldl applyOne st).head = st.head := by
  induction L generalizing st with
  | nil => rfl
  | cons a L ih => rw [List.foldl_cons, ih]; rfl

theorem foldl_revertOne_head (L : List String) (st : Node) :
    (L.foldl revertOne st).head = st.head := by
  induction L generalizing st with
  | nil => rfl
  | cons a L ih => rw [List.foldl_cons, ih, (revertOne_frame st a).2.2.1]

theorem markProcessedOne_frame (st : Node) (n : String) :
    (markProcessedOne st n).stakes = st.stakes ∧ (markProcessedOne st n).store = st.store ∧
    (markProcessedOne st n).head = st.head ∧ (markProcessedOne st n).votes = st.votes ∧
    (markProcessedOne st n).confirmations = st.confirmations ∧
    (markProcessedOne st n).txStore = st.txStore := by
  unfold markProcessedOne; simp

theorem foldl_markProcessedOne_processed (L : List String) (st : Node) (n : String) :
    n ∈ (L.foldl markProcessedOne st).processed ↔ n ∈ st.processed ∨ n ∈ L := by
  induction L generalizing st with
  | nil => simp
  | cons a L ih =>
    rw [List.foldl_cons, ih]
    show n ∈ insertSet st.processed a ∨ n ∈ L ↔ _
    rw [mem_insertSet]
    simp only [List.mem_cons]
    tauto

theorem foldl_markProcessedOne_mempool (L : List String) (st : Node) (n : String) :
    n ∈ (L.foldl markProcessedOne st).mempool ↔ n ∈ st.mempool ∧ n ∉ L := by
  induction L generalizing st with
  | nil => simp
  | cons a L ih =>
    rw [List.foldl_cons, ih]
    show n ∈ removeAll st.mempool a ∧ n ∉ L ↔ _
    rw [mem_removeAll]
    simp only [List.mem_cons]
    tauto

theorem foldl_markProcessedOne_stakes (L : List String) (st : Node) :
    (L.foldl markProcessedOne st).stakes = st.stakes := by
  induction L generalizing st with
  | nil => rfl
  | cons a L ih => rw [List.foldl_cons, ih]; rfl

theorem foldl_markProcessedOne_store (L : List String) (st : Node) :
    (L.foldl markProcessedOne st).store = st.store := by
  induction L generalizing st with
  | nil => rfl
  | cons a L ih => rw [List.foldl_cons, ih]; rfl

theorem foldl_markProcessedOne_confirmations (L : List String) (st : Node) :
    (L.foldl markProcessedOne st).confirmations = st.confirmations := by
  induction L generalizing st with
  | nil => rfl
  | cons a L ih => rw [List.foldl_cons, ih]; rfl

theorem lookupA_putA_self {α : Type} (l : List (String × α)) (k : String) (v : α) :
    lookupA (putA l k v) k = some v := by
  simp [lookupA, putA, List.find?]

theorem stakeOf_putA_self (l : List (String × Nat)) (k : String) (v : Nat) :
    stakeOf (putA l k v) k = v := by
  unfold stakeOf
  rw [lookupA_putA_self]
  rfl

theorem foldl_revertOne_rest (L : List String) (st : Node) :
    (L.foldl revertOne st).store = st.store ∧ (L.foldl revertOne st).stakes = st.stakes ∧
    (L.foldl revertOne st).votes = st.votes ∧
    (L.foldl revertOne st).confirmations = st.confirmations := by
  induction L generalizing st with
  | nil => exact ⟨rfl, rfl, rfl, rfl⟩
  | cons a L ih =>
    rw [List.foldl_cons]
    obtain ⟨h1, h2, h3, h4⟩ := ih (revertOne st a)
    obtain ⟨_, f1, _, f2, f3, f4, _⟩ := revertOne_frame st a
    exact ⟨h1.trans f1, h2.trans f2, h3.trans f3, h4.trans f4⟩

theorem foldl_applyOne_rest (L : List String) (st : Node) :
    (L.foldl applyOne st).store = st.store ∧ (L.foldl applyOne st).stakes = st.stakes ∧
    (L.foldl applyOne st).votes = st.votes ∧
    (L.foldl applyOne st).confirmations = st.confirmations := by
  induction L generalizing st with
  | nil => exact ⟨rfl, rfl, rfl, rfl⟩
  | cons a L ih =>
    rw [List.foldl_cons]
    obtain ⟨h1, h2, h3, h4⟩ := ih (applyOne st a)
    exact ⟨h1, h2, h3, h4⟩

/-- The pending-sync recording fold of `resolve_fork_with_retry` changes only
`pendingSync`. -/
theorem foldl_syncPut_frame (peers : List String) (st : Node) (k : String) (v : Block) :
    (peers.foldl (fun s _ => { s with pendingSync := putA s.pendingSync k v }) st).store =
      st.store ∧
    (peers.foldl (fun s _ => { s with pendingSync := putA s.pendingSync k v }) st).head =
      st.head ∧
    (peers.foldl (fun s _ => { s with pendingSync := putA s.pendingSync k v }) st).votes =
      st.votes ∧
    (peers.foldl (fun s _ => { s with pendingSync := putA s.pendingSync k v }) st).stakes =
      st.stakes ∧
    (peers.foldl (fun s _ => { s with pendingSync := putA s.pendingSync k v }) st).confirmations =
      st.confirmations ∧
    (peers.foldl (fun s _ =>
      { s with pendingSync := putA s.pendingSync k v }) st).processed = st.processed ∧
    (peers.foldl (fun s _ =>
      { s with pendingSync := putA s.pendingSync k v }) st).mempool = st.mempool := by
  induction peers generalizing st with
  | nil => exact ⟨rfl, rfl, rfl, rfl, rfl, rfl, rfl⟩
  | cons p peers ih =>
    rw [List.foldl_cons]
    exact ih _

theorem foldl_syncPut_lookup (peers : List String) (st : Node) (k : String) (v : Block)
    (hne : peers ≠ []) :
    lookupA (peers.foldl (fun s _ =>
      { s with pendingSync := putA s.pendingSync k v }) st).pendingSync k = some v := by
  induction peers generalizing st with
  | nil => exact absurd rfl hne
  | cons p peers ih =>
    rw [List.foldl_cons]
    cases peers with
    | nil => exact lookupA_putA_self _ _ _
    | cons q qs => exact ih _ (by simp)

theorem getLatest_of_head_ne (st : Node) (h : st.head ≠ "") : getLatest st = st.head := by
  unfold getLatest
  rw [if_neg h]

theorem getLatest_cache (st : Node) : getLatest { st with head := getLatest st } = getLatest st := by
  unfold getLatest
  by_cases h : st.head = ""
  · simp only [h, if_pos rfl]
    by_cases h2 : lastKeyLex st.store = "" <;> simp [h2]
  · simp [h]

theorem get_chain_empty_start (store : List (String × Block)) :
    get_chain_from_hash store "" 100 = [] := by
  rfl

theorem get_chain_missing_start (store : List (String × Block)) (h : String)
    (hmiss : lookupA store h = none) : get_chain_from_hash store h 100 = [] := by
  show walkChain store 100 h = []
  by_cases he : h = ""
  · subst he; rfl
  · show walkChain store (99 + 1) h = []
    unfold walkChain
    rw [if_neg he, hmiss]

theorem foldl_applyOne_txStore (L : List String) (st : Node) :
    (L.foldl applyOne st).txStore = st.txStore := by
  induction L generalizing st with
  | nil => rfl
  | cons a L ih => rw [List.foldl_cons, ih]; rfl

/-- `reprocess_transactions` changes nothing but `processed` and `mempool`. -/
theorem reprocess_frame (st : Node) (oldC newC : List String) :
    (reprocess_transactions st oldC newC).store = st.store ∧
    (reprocess_transactions st oldC newC).stakes = st.stakes ∧
    (reprocess_transactions st oldC newC).votes = st.votes ∧
    (reprocess_transactions st oldC newC).confirmations = st.confirmations ∧
    (reprocess_transactions st oldC newC).head = st.head ∧
    (reprocess_transactions st oldC newC).txStore = st.txStore := by
  unfold reprocess_transactions
  split
  · exact ⟨rfl, rfl, rfl, rfl, rfl, rfl⟩
  · dsimp only
    obtain ⟨a1, a2, a3, a4⟩ := foldl_applyOne_rest _ (_ : Node)
    obtain ⟨r1, r2, r3, r4⟩ := foldl_revertOne_rest _ st
    refine ⟨a1.trans r1, a2.trans r2, a3.trans r3, a4.trans r4, ?_, ?_⟩
    · exact (foldl_applyOne_head _ _).trans (foldl_revertOne_head _ st)
    · exact (foldl_applyOne_txStore _ _).trans (foldl_revertOne_txStore _ st)

/-- `resolve_fork` changes nothing but `head`, `processed` and `mempool`. -/
theorem resolve_fork_frame (now : Nat) (st : Node) (b : Block) :
    (resolve_fork now st b).1.store = st.store ∧ (resolve_fork now st b).1.stakes = st.stakes ∧
    (resolve_fork now st b).1.votes = st.votes ∧
    (resolve_fork now st b).1.confirmations = st.confirmations := by
  unfold resolve_fork
  dsimp only
  split
  · exact ⟨rfl, rfl, rfl, rfl⟩
  · split
    · exact ⟨rfl, rfl, rfl, rfl⟩
    · split
      · obtain ⟨h1, h2, h3, h4, _, _⟩ :=
          reprocess_frame { st with head := getLatest st } _ _
        exact ⟨h1, h2, h3, h4⟩
      · exact ⟨rfl, rfl, rfl, rfl⟩

/-- When `resolve_fork` succeeds it has pointed the head at the proposal's
predecessor, which is in particular a nonempty hash. -/
theorem resolve_fork_true_head (now : Nat) (st : Node) (b : Block)
    (h : (resolve_fork now st b).2 = true) :
    (resolve_fork now st b).1.head = b.prev ∧ b.prev ≠ "" := by
  unfold resolve_fork at h ⊢
  dsimp only at h ⊢
  by_cases h1 : MAX_BLOCK_AGE < timeDiff now b.ts
  · rw [if_pos h1] at h; exact absurd h (by simp)
  · rw [if_neg h1] at h ⊢
    by_cases h2 : (get_chain_from_hash st.store b.prev 100).isEmpty = true
    · rw [if_pos h2] at h; exact absurd h (by simp)
    · rw [if_neg h2] at h ⊢
      by_cases h3 : (get_chain_from_hash st.store (getLatest st) 100).length <
          (get_chain_from_hash st.store b.prev 100).length
      · rw [if_pos h3]
        refine ⟨rfl, ?_⟩
        intro he
        rw [he] at h2
        exact h2 (by rw [get_chain_empty_start]; rfl)
      · rw [if_neg h3] at h; exact absurd h (by simp)

/-! ## Claim theorems -/

/-- C1 (counterexample): the claimed stake-weighted sortition rule fails on
the implemented selection.  Take `seed = b""`, participant id `b"a"`, one
enumerated peer `b"b"`, and give the participant the entire stake
(`s = total_stake = 1`): the spec-side score `hashVal/2^256` lies in `[0,1)`,
so `score < s/total_stake = 1` holds and the claim makes the participant a
proposer — but `lottery_selection` returns `false`, because
`sha256(b"" + b"b") < sha256(b"" + b"a")` makes the peer the winner. -/
theorem lottery_selection_claim_fails_with_full_stake :
    lottery_selection [] [97] 1 [[98]] = false ∧ sortitionSpec [] [97] 1 1 = true := by
  decide

/-- C1 (amended): `lottery_selection` makes the participant a proposer iff
its hash value `sha256(seed + p_id)` is less than or equal to every
enumerated peer's hash value `sha256(seed + peer)`; the participant's stake
and `total_stake` play no role in the decision. -/
theorem lottery_selection_iff_lowest_hash (seed pid : List Nat) (total_stake : Nat)
    (peers : List (List Nat)) :
    lottery_selection seed pid total_stake peers = true ↔
      ∀ q ∈ peers, hashVal seed pid ≤ hashVal seed q := by
  unfold lottery_selection
  rw [decide_eq_true_eq]
  exact lotteryLoop_start_self seed pid peers

/-- C10: the implemented proposer selection is independent of stake — two
invocations differing only in the `total_stake` argument agree for every
seed, participant id and peer list — and the result is determined solely by
whether the participant's `sha256(seed || id)` is lowest among itself and
the enumerated peers. -/
theorem lottery_selection_stake_independent (seed pid : List Nat) (t1 t2 : Nat)
    (peers : List (List Nat)) :
    lottery_selection seed pid t1 peers = lottery_selection seed pid t2 peers ∧
      (lottery_selection seed pid t1 peers = true ↔
        ∀ q ∈ peers, hashVal seed pid ≤ hashVal seed q) := by
  refine ⟨rfl, ?_⟩
  unfold lottery_selection
  rw [decide_eq_true_eq]
  exact lotteryLoop_start_self seed pid peers

/-- C3: on the repository's own three-item test vector
(`TestMerkleTree.test_three_items`, items `b"item1"`, `b"item2"`,
`b"item3"`), the root the source computes differs from the root the claim —
and the test — prescribe (`merkleRootSpec`): `build_tree` uses the raw items
as leaf hashes and splits the index range at its midpoint, instead of
hashing each leaf and duplicating the odd last node level by level.  The
empty-input clause, by contrast, agrees: both sides give `sha256(b"")`. -/
theorem merkle_root_contradicts_own_tests :
    (decide (merkle_root [strBytes "item1", strBytes "item2", strBytes "item3"] =
      merkleRootSpec [strBytes "item1", strBytes "item2", strBytes "item3"]) = false) ∧
    merkle_root [] = merkleRootSpec [] := by
  refine ⟨by decide, rfl⟩

theorem chainLinked_nil (store : List (String × Block)) : chainLinked store [] := by
  trivial

theorem chainLinked_single (store : List (String × Block)) (h : String) :
    chainLinked store [h] := by
  trivial

theorem walkChain_spec (store : List (String × Block)) :
    ∀ (fuel : Nat) (cur : String),
      (walkChain store fuel cur).length ≤ fuel + 1 ∧
      chainLinked store (walkChain store fuel cur) ∧
      (∀ h ∈ walkChain store fuel cur, h = zeroHash ∨ (lookupA store h).isSome = true) ∧
      (walkChain store fuel cur = [] ∨ (walkChain store fuel cur).head? = some cur) := by
  intro fuel
  induction fuel with
  | zero =>
    intro cur
    have hw : walkChain store 0 cur = [] := rfl
    rw [hw]
    exact ⟨by simp, chainLinked_nil store, by simp, Or.inl rfl⟩
  | succ fuel ih =>
    intro cur
    by_cases hc : cur = ""
    · have hw : walkChain store (fuel + 1) cur = [] := by
        unfold walkChain; rw [if_pos hc]
      rw [hw]
      exact ⟨by simp, chainLinked_nil store, by simp, Or.inl rfl⟩
    · cases hl : lookupA store cur with
      | none =>
        have hw : walkChain store (fuel + 1) cur = [] := by
          unfold walkChain; rw [if_neg hc, hl]
        rw [hw]
        exact ⟨by simp, chainLinked_nil store, by simp, Or.inl rfl⟩
      | some b =>
        by_cases hz : b.prev = zeroHash
        · have hw : walkChain store (fuel + 1) cur = [cur, zeroHash] := by
            unfold walkChain; rw [if_neg hc, hl]; exact if_pos hz
          rw [hw]
          refine ⟨by simp, ⟨⟨b, hl, hz⟩, chainLinked_single store zeroHash⟩, ?_, Or.inr rfl⟩
          intro h hm
          rw [List.mem_cons] at hm
          rcases hm with rfl | hm
          · exact Or.inr (by rw [hl]; rfl)
          · rw [List.mem_singleton] at hm
            exact Or.inl hm
        · have hw : walkChain store (fuel + 1) cur = cur :: walkChain store fuel b.prev := by
            show (if cur = "" then []
                  else match lookupA store cur with
                       | none => []
                       | some bb =>
                         if bb.prev = zeroHash then [cur, zeroHash]
                         else cur :: walkChain store fuel bb.prev) =
              cur :: walkChain store fuel b.prev
            rw [if_neg hc, hl]
            exact if_neg hz
          rw [hw]
          obtain ⟨ih1, ih2, ih3, ih4⟩ := ih b.prev
          refine ⟨by simpa using Nat.succ_le_succ ih1, ?_, ?_, Or.inr rfl⟩
          · cases hr : walkChain store fuel b.prev with
            | nil => exact chainLinked_single store cur
            | cons h' t =>
              rcases ih4 with h4 | h4
              · rw [hr] at h4; cases h4
              · rw [hr, List.head?_cons] at h4
                have hh' : h' = b.prev := Option.some.inj h4
                rw [hr] at ih2
                exact ⟨⟨b, hl, hh'.symm⟩, ih2⟩
          · intro h hm
            rcases List.mem_cons.mp hm with rfl | hm
            · exact Or.inr (by rw [hl]; rfl)
            · exact ih3 h hm

/-- C9 (counterexample): with one stored block whose predecessor is genesis
and `max_depth = 1`, the walk returns `["aa", zeroHash]` — two hashes, more
than the claimed bound of `max_depth = 1`, because the zero sentinel is
appended outside the length guard. -/
theorem get_chain_exceeds_max_depth :
    (get_chain_from_hash storeOneBlock "aa" 1).length = 2 ∧
      ¬ (get_chain_from_hash storeOneBlock "aa" 1).length ≤ 1 := by
  decide

/-- C9 (amended): `get_chain_from_hash store start max_depth` returns an
ordered list of at most `max_depth + 1` hashes (the extra one being the
all-zero genesis sentinel appended past the bound), consecutive entries are
linked through `previous_block_hash`, every returned hash other than the
zero sentinel is present in the local store (the walk stops silently,
without error, at a missing ancestor), and a nonempty result starts at
`start`. -/
theorem get_chain_from_hash_walk_back (store : List (String × Block)) (start : String)
    (maxDepth : Nat) :
    (get_chain_from_hash store start maxDepth).length ≤ maxDepth + 1 ∧
    chainLinked store (get_chain_from_hash store start maxDepth) ∧
    (∀ h ∈ get_chain_from_hash store start maxDepth,
      h = zeroHash ∨ (lookupA store h).isSome = true) ∧
    (get_chain_from_hash store start maxDepth = [] ∨
      (get_chain_from_hash store start maxDepth).head? = some start) :=
  walkChain_spec store maxDepth start

/-- C8 (counterexample): a node whose head `"aa"` differs from the
proposal's unknown predecessor `"c9"` but with no connected peers records
nothing in the pending-request table (the recording sits inside the
per-peer loop), against the claim that the triggering proposal is recorded. -/
theorem sync_request_no_peer_no_record :
    nodeNoC9.head ≠ blockOnC9.prev ∧ lookupA nodeNoC9.store blockOnC9.prev = none ∧
    (resolve_fork_with_retry 0 nodeNoC9 blockOnC9 []).1.pendingSync = [] ∧
    (resolve_fork_with_retry 0 nodeNoC9 blockOnC9 []).2.1 = [] := by
  decide

/-- `resolve_fork` declines, leaving the state untouched, when the
proposal's predecessor is not in the local ledger. -/
theorem resolve_fork_missing (now : Nat) (st : Node) (b : Block)
    (hmiss : lookupA st.store b.prev = none) :
    resolve_fork now st b = (st, false) := by
  unfold resolve_fork
  dsimp only
  by_cases h1 : MAX_BLOCK_AGE < timeDiff now b.ts
  · rw [if_pos h1]
  · rw [if_neg h1, get_chain_missing_start st.store b.prev hmiss]
    rfl

/-- C8 (amended): on a proposal whose predecessor differs from the local
head and is absent from the local ledger, the node emits exactly one
`BlockSyncRequest{from_hash, count=10}` per currently connected peer, does
not commit the block (ledger and head unchanged, result `false`), and —
provided at least one peer is connected — records the triggering proposal
keyed by the missing hash in the pending-request table. -/
theorem sync_request_per_peer (now : Nat) (st : Node) (b : Block) (peers : List String)
    (hhead : b.prev ≠ getLatest st) (hmiss : lookupA st.store b.prev = none) :
    (resolve_fork_with_retry now st b peers).2.2 = false ∧
    (resolve_fork_with_retry now st b peers).2.1 =
      peers.map (fun p => (p, ({ blockHash := b.prev, count := 10 } : SyncRequest))) ∧
    (resolve_fork_with_retry now st b peers).1.store = st.store ∧
    (resolve_fork_with_retry now st b peers).1.head = st.head ∧
    (peers ≠ [] →
      lookupA (resolve_fork_with_retry now st b peers).1.pendingSync b.prev = some b) := by
  unfold resolve_fork_with_retry
  rw [resolve_fork_missing now st b hmiss]
  dsimp only
  refine ⟨rfl, rfl, ?_, ?_, ?_⟩
  · exact (foldl_syncPut_frame peers st b.prev b).1
  · exact (foldl_syncPut_frame peers st b.prev b).2.1
  · intro hne
    exact foldl_syncPut_lookup peers st b.prev b hne

/-- C8 witness: `sync_request_per_peer` at the concrete missing-ancestor
state with two connected peers. -/
theorem sync_request_per_peer_witness :
    (resolve_fork_with_retry 0 nodeNoC9 blockOnC9 ["p1", "p2"]).2.1 =
      ["p1", "p2"].map (fun p =>
        (p, ({ blockHash := blockOnC9.prev, count := 10 } : SyncRequest))) ∧
    lookupA (resolve_fork_with_retry 0 nodeNoC9 blockOnC9 ["p1", "p2"]).1.pendingSync
      blockOnC9.prev = some blockOnC9 := by
  have h := sync_request_per_peer 0 nodeNoC9 blockOnC9 ["p1", "p2"] (by decide) (by decide)
  exact ⟨h.2.1, h.2.2.2.2 (by simp)⟩

/-- C7: `on_transaction` rejects a transaction whose signature does not
verify against `proposer_pubkey` over the canonical string
`match_id:winner:nonce:proposer_pubkey`, leaving every piece of state
untouched; admission of an already-known nonce (mempool or storage) is a
silent no-op; and a fresh, correctly signed transaction is added to both
the mempool and persistent storage. -/
theorem on_transaction_admission (verify : String → String → String → VRes)
    (st : Node) (t : Tx) :
    (verify t.proposerPub t.signature (txCanonical t) ≠ VRes.ok →
      on_transaction verify st t = st) ∧
    (t.nonce ∈ st.mempool ∨ t.nonce ∈ st.txStore → on_transaction verify st t = st) ∧
    (verify t.proposerPub t.signature (txCanonical t) = VRes.ok →
      t.nonce ∉ st.mempool → t.nonce ∉ st.txStore →
      (on_transaction verify st t).mempool = insertSet st.mempool t.nonce ∧
      (on_transaction verify st t).txStore = insertSet st.txStore t.nonce ∧
      t.nonce ∈ (on_transaction verify st t).mempool ∧
      t.nonce ∈ (on_transaction verify st t).txStore) := by
  unfold on_transaction
  cases hv : verify t.proposerPub t.signature (txCanonical t) with
  | ok =>
    refine ⟨fun h => absurd rfl h, fun h => by rw [if_pos h], fun _ h1 h2 => ?_⟩
    rw [if_neg (by rintro (h | h); exacts [h1 h, h2 h])]
    refine ⟨rfl, rfl, ?_, ?_⟩
    · exact (mem_insertSet st.mempool t.nonce t.nonce).mpr (Or.inl rfl)
    · exact (mem_insertSet st.txStore t.nonce t.nonce).mpr (Or.inl rfl)
  | invalid => exact ⟨fun _ => rfl, fun _ => rfl, fun h => absurd h (by simp)⟩
  | err => exact ⟨fun _ => rfl, fun _ => rfl, fun h => absurd h (by simp)⟩

/-- C7 witness: a rejected signature leaves the empty node unchanged, and a
fresh valid transaction lands in both mempool and storage. -/
theorem on_transaction_admission_witness :
    on_transaction verifyBad emptyNode txN1 = emptyNode ∧
    "n1" ∈ (on_transaction verifyOk emptyNode txN1).mempool ∧
    "n1" ∈ (on_transaction verifyOk emptyNode txN1).txStore := by
  refine ⟨(on_transaction_admission verifyBad emptyNode txN1).1 (by decide), ?_, ?_⟩
  · exact ((on_transaction_admission verifyOk emptyNode txN1).2.2 rfl (by decide)
      (by decide)).2.2.1
  · exact ((on_transaction_admission verifyOk emptyNode txN1).2.2 rfl (by decide)
      (by decide)).2.2.2

/-- A block id already holding a confirmation makes `check_consensus` a
complete no-op. -/
theorem check_consensus_confirmed_noop (sign : String → String) (myPub : String)
    (peers : List String) (st : Node) (b : Block) (hb : blockId b ∈ st.confirmations) :
    check_consensus sign myPub peers st b = (st, false, []) := by
  unfold check_consensus
  dsimp only
  rw [if_pos hb]

/-- C6: once a `BlockConfirmation` is committed for a block id (the id is in
the confirmation set), a later delivery of a confirmation for that id is a
complete no-op, a later vote for that id may extend the vote set but leaves
the ledger, the processed set, the mempool, the stake ledger and the
confirmation set unchanged, and `check_consensus` on that id neither
commits nor re-credits the reward.  The hypothesis on `proposedStore` says
that every cached proposed block matching the vote's round-seed prefix and
Merkle root — i.e. every block the vote handler could re-check — carries an
already-confirmed id. -/
theorem finalized_block_idempotent (verify : String → String → String → VRes)
    (sign : String → String) (myPub : String) (peers : List String) (st : Node)
    (c : Confirmation) (v : Vote) (b : Block)
    (hc : c.roundSeed ++ ":" ++ c.merkleRoot ∈ st.confirmations)
    (hv : ∀ kb ∈ st.proposedStore,
        (strStartsWith kb.1 (v.roundSeed ++ ":") && kb.2.merkleRoot == v.merkleRoot) = true →
        blockId kb.2 ∈ st.confirmations)
    (hb : blockId b ∈ st.confirmations) :
    on_block_confirmation verify st c = st ∧
    ((on_validator_vote verify sign myPub peers st v).store = st.store ∧
      (on_validator_vote verify sign myPub peers st v).processed = st.processed ∧
      (on_validator_vote verify sign myPub peers st v).stakes = st.stakes ∧
      (on_validator_vote verify sign myPub peers st v).mempool = st.mempool ∧
      (on_validator_vote verify sign myPub peers st v).confirmations = st.confirmations) ∧
    check_consensus sign myPub peers st b = (st, false, []) := by
  refine ⟨?_, ?_, check_consensus_confirmed_noop sign myPub peers st b hb⟩
  · unfold on_block_confirmation
    cases verify c.confirmerPub c.signature (confDataOf c) with
    | ok => dsimp only; rw [if_pos hc]
    | invalid => rfl
    | err => rfl
  · unfold on_validator_vote
    cases verify v.validatorPub v.signature (voteDataOf v) with
    | ok =>
      dsimp only
      by_cases hp : v.proposerPub = myPub
      · rw [if_pos hp]
        cases hf : findProposed st.proposedStore v.roundSeed v.merkleRoot with
        | none => exact ⟨rfl, rfl, rfl, rfl, rfl⟩
        | some bb =>
          have hbb : blockId bb ∈ st.confirmations := by
            unfold findProposed at hf
            cases hfind : List.find?
                (fun kb => strStartsWith kb.1 (v.roundSeed ++ ":") && kb.2.merkleRoot == v.merkleRoot)
                st.proposedStore with
            | none => rw [hfind] at hf; cases hf
            | some kb =>
              rw [hfind] at hf
              have hkb : bb = kb.2 := (Option.some.inj hf).symm
              have hmem := List.mem_of_find?_eq_some hfind
              have hpred := List.find?_some hfind
              rw [hkb]
              exact hv kb hmem hpred
          dsimp only
          have hcc := check_consensus_confirmed_noop sign myPub peers { st with votes := updateVotes st.votes (v.roundSeed ++ ":" ++ v.merkleRoot) v.validatorPub v.vote } bb hbb
          rw [hcc]
          exact ⟨rfl, rfl, rfl, rfl, rfl⟩
      · rw [if_neg hp]
        exact ⟨rfl, rfl, rfl, rfl, rfl⟩
    | invalid => exact ⟨rfl, rfl, rfl, rfl, rfl⟩
    | err => exact ⟨rfl, rfl, rfl, rfl, rfl⟩

/-- C6 witness: `finalized_block_idempotent` on a concrete finalized state,
with the vote naming this node as proposer so the re-check path runs. -/
theorem finalized_block_idempotent_witness :
    on_block_confirmation verifyOk nodeFinalized confSR = nodeFinalized ∧
    (on_validator_vote verifyOk signNull "me" ["p1"] nodeFinalized voteSR).stakes =
      nodeFinalized.stakes ∧
    (on_validator_vote verifyOk signNull "me" ["p1"] nodeFinalized voteSR).processed =
      nodeFinalized.processed ∧
    check_consensus signNull "me" ["p1"] nodeFinalized { blockSR with proposerPub := "me" } =
      (nodeFinalized, false, []) := by
  have h := finalized_block_idempotent verifyOk signNull "me" ["p1"] nodeFinalized confSR voteSR
    { blockSR with proposerPub := "me" } (by decide) (by decide) (by decide)
  exact ⟨h.1, h.2.1.2.2.1, h.2.1.2.1, h.2.2⟩

/-- C2 (counterexample): three voters of stake 10 each voting
approve/approve/reject give an approval ratio of exactly 20/30 = 2/3 among
the voters, so the claim requires finalization — but `check_consensus`
compares against `QUORUM_RATIO = 0.67 > 2/3` and does not finalize, leaving
the state unchanged and broadcasting nothing. -/
theorem quorum_two_thirds_not_finalized :
    blockId blockSR ∉ nodeTwoThirds.confirmations ∧
    0 < (tally nodeTwoThirds.stakes (votesFor nodeTwoThirds (blockId blockSR))).1 ∧
    2 * (tally nodeTwoThirds.stakes (votesFor nodeTwoThirds (blockId blockSR))).1 ≤
      3 * (tally nodeTwoThirds.stakes (votesFor nodeTwoThirds (blockId blockSR))).2 ∧
    check_consensus signNull "me" [] nodeTwoThirds blockSR = (nodeTwoThirds, false, []) := by
  decide

/-- C2 (amended): for a candidate block id with no confirmation yet,
`check_consensus` finalizes iff, over the set of participants who have voted
so far, `voting_stake > 0` and `approving_stake / voting_stake ≥ 0.67` (the
source's `QUORUM_RATIO`, not 2/3); on finalization the confirmation is
recorded, the signed `BlockConfirmation` is broadcast to every known peer,
the block is committed under its recomputed hash, its transaction nonces are
marked processed and leave the mempool, and the proposer is credited the
fixed reward of 2; otherwise nothing changes.  In particular, with stakes
10/10/10, a 2-approve/1-silent vote set finalizes (ratio 1.0) — and so does
1-approve/2-silent (ratio 1.0 among voters), unlike the claim's scenario. -/
theorem check_consensus_finalizes_iff_quorum (sign : String → String) (myPub : String)
    (peers : List String) (st : Node) (b : Block)
    (hnew : blockId b ∉ st.confirmations) :
    ((check_consensus sign myPub peers st b).2.1 = true ↔
      0 < (tally st.stakes (votesFor st (blockId b))).1 ∧
      QUORUM_NUM * (tally st.stakes (votesFor st (blockId b))).1 ≤
        100 * (tally st.stakes (votesFor st (blockId b))).2) ∧
    ((check_consensus sign myPub peers st b).2.1 = true →
      blockId b ∈ (check_consensus sign myPub peers st b).1.confirmations ∧
      lookupA (check_consensus sign myPub peers st b).1.store (blockHashHex b) = some b ∧
      (∀ n ∈ b.txs, n ∈ (check_consensus sign myPub peers st b).1.processed ∧
        n ∉ (check_consensus sign myPub peers st b).1.mempool) ∧
      stakeOf (check_consensus sign myPub peers st b).1.stakes b.proposerPub =
        stakeOf st.stakes b.proposerPub + REWARD_AMOUNT ∧
      (check_consensus sign myPub peers st b).2.2 =
        peers.map (fun p => (p, buildConfirmation sign myPub b
          (votesFor st (blockId b)).length))) ∧
    ((check_consensus sign myPub peers st b).2.1 = false →
      (check_consensus sign myPub peers st b).1 = st ∧
      (check_consensus sign myPub peers st b).2.2 = []) := by
  unfold check_consensus
  dsimp only
  rw [if_neg hnew]
  cases hl : lookupA st.votes (blockId b) with
  | none =>
    have hvf : votesFor st (blockId b) = [] := by unfold votesFor; rw [hl]; rfl
    rw [hvf]
    refine ⟨by simp [tally], by simp, fun _ => ⟨rfl, rfl⟩⟩
  | some vs =>
    have hvf : votesFor st (blockId b) = vs := by unfold votesFor; rw [hl]; rfl
    rw [hvf]
    dsimp only
    by_cases hq : quorumReached (tally st.stakes vs).1 (tally st.stakes vs).2 = true
    · rw [if_pos hq]
      have hqiff : 0 < (tally st.stakes vs).1 ∧
          QUORUM_NUM * (tally st.stakes vs).1 ≤ 100 * (tally st.stakes vs).2 := by
        unfold quorumReached at hq
        rw [Bool.and_eq_true, decide_eq_true_eq, decide_eq_true_eq] at hq
        exact hq
      refine ⟨by simp [hqiff], fun _ => ?_, by simp⟩
      refine ⟨?_, ?_, ?_, ?_, rfl⟩
      · show blockId b ∈ (reward_proposer _ b.proposerPub).confirmations
        show blockId b ∈ (mark_transactions_as_processed _ b.txs).confirmations
        rw [mark_transactions_as_processed, foldl_markProcessedOne_confirmations]
        exact (mem_insertSet st.confirmations (blockId b) (blockId b)).mpr (Or.inl rfl)
      · show lookupA (mark_transactions_as_processed _ b.txs).store (blockHashHex b) = some b
        rw [mark_transactions_as_processed, foldl_markProcessedOne_store]
        exact lookupA_putA_self st.store (blockHashHex b) b
      · intro n hn
        constructor
        · show n ∈ (mark_transactions_as_processed _ b.txs).processed
          rw [mark_transactions_as_processed]
          exact (foldl_markProcessedOne_processed b.txs _ n).mpr (Or.inr hn)
        · show n ∉ (mark_transactions_as_processed _ b.txs).mempool
          rw [mark_transactions_as_processed]
          intro hmem
          exact ((foldl_markProcessedOne_mempool b.txs _ n).mp hmem).2 hn
      · show stakeOf (reward_proposer (mark_transactions_as_processed _ b.txs)
            b.proposerPub).stakes b.proposerPub = _
        unfold reward_proposer
        dsimp only
        rw [stakeOf_putA_self, mark_transactions_as_processed,
          foldl_markProcessedOne_stakes]
    · rw [if_neg hq]
      refine ⟨?_, by simp, fun _ => ⟨rfl, rfl⟩⟩
      constructor
      · intro h; cases h
      · intro hconj
        exfalso
        apply hq
        unfold quorumReached
        rw [Bool.and_eq_true, decide_eq_true_eq, decide_eq_true_eq]
        exact hconj

/-- C2 witness: the 2-approve/1-silent scenario with stakes 10/10/10
finalizes, marks the block's nonce processed and credits the proposer. -/
theorem check_consensus_finalizes_witness :
    (check_consensus signNull "me" ["p1"] nodeTwoSilentOne blockSR).2.1 = true ∧
    "t" ∈ (check_consensus signNull "me" ["p1"] nodeTwoSilentOne blockSR).1.processed ∧
    stakeOf (check_consensus signNull "me" ["p1"] nodeTwoSilentOne blockSR).1.stakes "pp" =
      stakeOf nodeTwoSilentOne.stakes "pp" + REWARD_AMOUNT := by
  have h := check_consensus_finalizes_iff_quorum signNull "me" ["p1"] nodeTwoSilentOne blockSR
    (by decide)
  have hfin : (check_consensus signNull "me" ["p1"] nodeTwoSilentOne blockSR).2.1 = true :=
    h.1.mpr (by decide)
  have h2 := h.2.1 hfin
  exact ⟨hfin, (h2.2.2.1 "t" (by decide)).1, h2.2.2.2.1⟩

/-- C5 (counterexample): the same fork state as the witness below — the
alternative chain rooted at the proposal's predecessor is strictly longer
(4 > 3) and shares the common ancestor `"aa"` — but the proposal is older
than `MAX_BLOCK_AGE`, so `resolve_fork` refuses to switch and leaves the
node unchanged, against the claim that a strictly longer alternative chain
always triggers the switch. -/
theorem resolve_fork_stale_no_switch :
    (get_chain_from_hash nodeFork.store nodeFork.head 100).length <
      (get_chain_from_hash nodeFork.store blockOnC2.prev 100).length ∧
    (findCommonAncestor (get_chain_from_hash nodeFork.store nodeFork.head 100)
      (get_chain_from_hash nodeFork.store blockOnC2.prev 100)).isSome = true ∧
    resolve_fork 10000 nodeFork blockOnC2 = (nodeFork, false) := by
  decide

/-- C5 (amended): with a set chain head, given a fresh proposal (within
`MAX_BLOCK_AGE`) whose predecessor roots a strictly longer alternative chain
sharing a common ancestor with the current chain, `resolve_fork` switches:
afterwards the chain head is the alternative tip, every nonce unique to the
abandoned suffix of the current chain has its processed marker removed and —
its transaction being present in the transaction store, as hypothesised —
is back in mempool, and every nonce in the new suffix is marked processed
and absent from mempool.  If the alternative chain is not strictly longer,
the chain head stays unchanged. -/
theorem resolve_fork_switch (now : Nat) (st : Node) (b : Block) (hhead : st.head ≠ "") :
    (∀ anc,
      timeDiff now b.ts ≤ MAX_BLOCK_AGE →
      findCommonAncestor (get_chain_from_hash st.store st.head 100)
        (get_chain_from_hash st.store b.prev 100) = some anc →
      (get_chain_from_hash st.store st.head 100).length <
        (get_chain_from_hash st.store b.prev 100).length →
      (∀ n ∈ suffixNonces st.store (get_chain_from_hash st.store st.head 100) anc,
        n ∈ st.txStore) →
      (resolve_fork now st b).2 = true ∧
      (resolve_fork now st b).1.head = b.prev ∧
      (∀ n ∈ suffixNonces st.store (get_chain_from_hash st.store st.head 100) anc,
        n ∉ suffixNonces st.store (get_chain_from_hash st.store b.prev 100) anc →
        n ∈ (resolve_fork now st b).1.mempool ∧ n ∉ (resolve_fork now st b).1.processed) ∧
      (∀ n ∈ suffixNonces st.store (get_chain_from_hash st.store b.prev 100) anc,
        n ∈ (resolve_fork now st b).1.processed ∧ n ∉ (resolve_fork now st b).1.mempool)) ∧
    (¬ (get_chain_from_hash st.store st.head 100).length <
        (get_chain_from_hash st.store b.prev 100).length →
      (resolve_fork now st b).1.head = st.head) := by
  have hlat : getLatest st = st.head := by unfold getLatest; rw [if_neg hhead]
  constructor
  · intro anc hfresh hanc hlonger htx
    unfold resolve_fork
    dsimp only
    rw [if_neg (not_lt.mpr hfresh), hlat]
    have halt : ¬ ((get_chain_from_hash st.store b.prev 100).isEmpty = true) := by
      intro he
      rw [List.isEmpty_iff] at he
      rw [he] at hlonger
      simp at hlonger
    rw [if_neg halt, if_pos hlonger]
    unfold reprocess_transactions
    dsimp only
    rw [hanc]
    dsimp only
    refine ⟨rfl, rfl, ?_, ?_⟩
    · intro n hnr hna
      constructor
      · show n ∈ (List.foldl applyOne (List.foldl revertOne _ _) _).mempool
        rw [foldl_applyOne_mempool]
        refine ⟨?_, hna⟩
        rw [foldl_revertOne_mempool]
        exact Or.inr ⟨hnr, htx n hnr⟩
      · show n ∉ (List.foldl applyOne (List.foldl revertOne _ _) _).processed
        rw [foldl_applyOne_processed]
        rintro (h | h)
        · exact ((foldl_revertOne_processed _ _ n).mp h).2 hnr
        · exact hna h
    · intro n hna
      constructor
      · show n ∈ (List.foldl applyOne (List.foldl revertOne _ _) _).processed
        rw [foldl_applyOne_processed]
        exact Or.inr hna
      · show n ∉ (List.foldl applyOne (List.foldl revertOne _ _) _).mempool
        rw [foldl_applyOne_mempool]
        rintro ⟨_, h⟩
        exact h hna
  · intro hnl
    unfold resolve_fork
    dsimp only
    by_cases h1 : MAX_BLOCK_AGE < timeDiff now b.ts
    · rw [if_pos h1]
    · rw [if_neg h1]
      by_cases h2 : (get_chain_from_hash st.store b.prev 100).isEmpty = true
      · rw [if_pos h2]
      · rw [if_neg h2, hlat, if_neg hnl]

/-- C5 witness: `resolve_fork_switch` on the concrete two-chain fork state
`nodeFork` — the node switches from `"bb"` to the longer `"c2"` chain,
nonce `"t1"` returns to mempool with its marker cleared, and `"u1"`, `"u2"`
are processed and out of mempool. -/
theorem resolve_fork_switch_witness :
    (resolve_fork 0 nodeFork blockOnC2).2 = true ∧
    (resolve_fork 0 nodeFork blockOnC2).1.head = "c2" ∧
    "t1" ∈ (resolve_fork 0 nodeFork blockOnC2).1.mempool ∧
    "t1" ∉ (resolve_fork 0 nodeFork blockOnC2).1.processed ∧
    "u1" ∈ (resolve_fork 0 nodeFork blockOnC2).1.processed ∧
    "u2" ∈ (resolve_fork 0 nodeFork blockOnC2).1.processed ∧
    "u1" ∉ (resolve_fork 0 nodeFork blockOnC2).1.mempool := by
  have h := (resolve_fork_switch 0 nodeFork blockOnC2 (by decide)).1 "aa" (by decide)
    (by decide) (by decide) (by decide)
  have ht := h.2.2.1 "t1" (by decide) (by decide)
  have hu1 := h.2.2.2 "u1" (by decide)
  have hu2 := h.2.2.2 "u2" (by decide)
  exact ⟨h.1, h.2.1, ht.1, ht.2, hu1.1, hu2.1, hu1.2⟩

theorem retry_true (now : Nat) (st : Node) (b : Block) (peers : List String)
    (h : (resolve_fork_with_retry now st b peers).2.2 = true) :
    (resolve_fork now st b).2 = true ∧
    (resolve_fork_with_retry now st b peers).1 = (resolve_fork now st b).1 := by
  unfold resolve_fork_with_retry at h ⊢
  dsimp only at h ⊢
  by_cases hr : (resolve_fork now st b).2 = true
  · rw [if_pos hr] at h ⊢
    exact ⟨hr, rfl⟩
  · rw [if_neg hr] at h
    cases h

theorem retry_frame (now : Nat) (st : Node) (b : Block) (peers : List String) :
    (resolve_fork_with_retry now st b peers).1.votes = st.votes ∧
    (resolve_fork_with_retry now st b peers).1.confirmations = st.confirmations ∧
    (resolve_fork_with_retry now st b peers).1.store = st.store ∧
    (resolve_fork_with_retry now st b peers).1.stakes = st.stakes := by
  obtain ⟨f1, f2, f3, f4⟩ := resolve_fork_frame now st b
  unfold resolve_fork_with_retry
  dsimp only
  by_cases hr : (resolve_fork now st b).2 = true
  · rw [if_pos hr]
    exact ⟨f3, f4, f1, f2⟩
  · rw [if_neg hr]
    obtain ⟨s1, _, s3, s4, s5, _, _⟩ := foldl_syncPut_frame peers (resolve_fork now st b).1 b.prev b
    exact ⟨s3.trans f3, s5.trans f4, s1.trans f1, s4.trans f2⟩

/-- The outcome of the validation body, given that the head cache is
consistent (`getLatest st = st.head`) and the proposal extends the head —
exactly the situation in which `on_proposed_block` reaches it.  Under these
hypotheses the source's second head comparison can never fire. -/
theorem validateBody_outcome (verify : String → String → String → VRes) (sign : String → String)
    (myPub : String) (peers : List String) (st : Node) (p : Block)
    (hlat : getLatest st = st.head) (hprev : p.prev = st.head) :
    (validateBody verify sign myPub peers st p).2 =
      match verify p.proposerPub p.signature (canonicalBlockString p) with
      | VRes.invalid => BlockOutcome.dropInvalidSig
      | VRes.err => BlockOutcome.dropSigError
      | VRes.ok =>
        if (if p.txs.isEmpty then p.merkleRoot = emptyRootHex
            else get_root_hex (p.txs.map strBytes) = p.merkleRoot) then
          (if MIN_STAKE ≤ stakeOf st.stakes myPub then BlockOutcome.voted
           else BlockOutcome.lowStake)
        else if p.txs.isEmpty then BlockOutcome.dropEmptyRoot
        else BlockOutcome.dropBadRoot := by
  unfold validateBody
  cases verify p.proposerPub p.signature (canonicalBlockString p) with
  | invalid => rfl
  | err => rfl
  | ok =>
    dsimp only
    rw [hlat]
    rw [if_neg (not_not_intro hprev)]
    unfold stakeGate
    dsimp only
    by_cases he : p.txs.isEmpty = true <;>
      by_cases hs : MIN_STAKE ≤ stakeOf st.stakes myPub <;>
      by_cases hr1 : p.merkleRoot = emptyRootHex <;>
      by_cases hr2 : get_root_hex (p.txs.map strBytes) = p.merkleRoot <;>
      (simp [he, hs, hr1, hr2]) <;> (split <;> rfl)

/-- When the validation body does not end in a vote, it has only (at most)
refreshed the head cache: votes, confirmations, ledger and stakes are those
of the state it received. -/
theorem validateBody_state (verify : String → String → String → VRes) (sign : String → String)
    (myPub : String) (peers : List String) (st : Node) (p : Block) :
    (validateBody verify sign myPub peers st p).2 ≠ BlockOutcome.voted →
    (validateBody verify sign myPub peers st p).1.votes = st.votes ∧
    (validateBody verify sign myPub peers st p).1.confirmations = st.confirmations ∧
    (validateBody verify sign myPub peers st p).1.store = st.store ∧
    (validateBody verify sign myPub peers st p).1.stakes = st.stakes := by
  unfold validateBody
  cases verify p.proposerPub p.signature (canonicalBlockString p) with
  | invalid => exact fun _ => ⟨rfl, rfl, rfl, rfl⟩
  | err => exact fun _ => ⟨rfl, rfl, rfl, rfl⟩
  | ok =>
    dsimp only
    unfold stakeGate
    dsimp only
    by_cases h1 : p.prev ≠ getLatest st
    · rw [if_pos h1]
      exact fun _ => ⟨rfl, rfl, rfl, rfl⟩
    · rw [if_neg h1]
      by_cases he : p.txs.isEmpty = true
      · rw [if_pos he]
        by_cases hr : p.merkleRoot ≠ emptyRootHex
        · rw [if_pos hr]
          exact fun _ => ⟨rfl, rfl, rfl, rfl⟩
        · rw [if_neg hr]
          by_cases hs : MIN_STAKE ≤ stakeOf st.stakes myPub
          · rw [if_pos hs]
            exact fun h => absurd rfl h
          · rw [if_neg hs]
            exact fun _ => ⟨rfl, rfl, rfl, rfl⟩
      · rw [if_neg he]
        by_cases hr : get_root_hex (p.txs.map strBytes) = p.merkleRoot
        · rw [if_pos hr]
          by_cases hs : MIN_STAKE ≤ stakeOf st.stakes myPub
          · rw [if_pos hs]
            exact fun h => absurd rfl h
          · rw [if_neg hs]
            exact fun _ => ⟨rfl, rfl, rfl, rfl⟩
        · rw [if_neg hr]
          exact fun _ => ⟨rfl, rfl, rfl, rfl⟩

/-- C4: the receiver-path validation of `on_proposed_block` computes, for
every state and every payload — malformed signatures and empty transaction
lists included — exactly the outcome of the specification's ordered
checklist (`validationSpec`): fork resolution first, then proposer
signature (either failure kind drops), then the Merkle root (the canonical
empty root, `sha256(b'')`, for an empty nonce list; a recomputation over the
declared nonces otherwise), then the stake gate; the first failing check
determines the outcome, and every path ends in one of the enumerated
outcomes — the model is a total function, with each Python `try/except` arm
an explicit branch, so no input can escape with an uncaught error.
Moreover, any dropped block leaves votes, confirmations, ledger and stake
ledger untouched. -/
theorem on_proposed_block_validation_order (verify : String → String → String → VRes)
    (sign : String → String) (myPub : String) (now : Nat) (peers : List String)
    (st : Node) (p : Block) :
    (on_proposed_block verify sign myPub now peers st p).2 =
      validationSpec verify myPub now peers st p ∧
    ((on_proposed_block verify sign myPub now peers st p).2 ≠ BlockOutcome.voted →
      (on_proposed_block verify sign myPub now peers st p).1.votes = st.votes ∧
      (on_proposed_block verify sign myPub now peers st p).1.confirmations =
        st.confirmations ∧
      (on_proposed_block verify sign myPub now peers st p).1.store = st.store ∧
      (on_proposed_block verify sign myPub now peers st p).1.stakes = st.stakes) := by
  unfold on_proposed_block validationSpec
  dsimp only
  by_cases hne : p.prev ≠ getLatest st
  · rw [if_pos hne, if_pos hne]
    by_cases hok : (resolve_fork_with_retry now { st with head := getLatest st } p peers).2.2 = true
    · rw [if_pos hok, if_pos hok]
      obtain ⟨hres, hst⟩ := retry_true now { st with head := getLatest st } p peers hok
      obtain ⟨hrh, hrne⟩ := resolve_fork_true_head now { st with head := getLatest st } p hres
      rw [hst]
      have hne2 : (resolve_fork now { st with head := getLatest st } p).1.head ≠ "" := by
        rw [hrh]; exact hrne
      have hlat : getLatest (resolve_fork now { st with head := getLatest st } p).1 =
          (resolve_fork now { st with head := getLatest st } p).1.head :=
        getLatest_of_head_ne _ hne2
      have hprev : p.prev = (resolve_fork now { st with head := getLatest st } p).1.head := by
        rw [hrh]
      constructor
      · exact validateBody_outcome verify sign myPub peers _ p hlat hprev
      · intro h
        obtain ⟨v1, v2, v3, v4⟩ := validateBody_state verify sign myPub peers _ p h
        obtain ⟨f1, f2, f3, f4⟩ := resolve_fork_frame now { st with head := getLatest st } p
        exact ⟨v1.trans f3, v2.trans f4, v3.trans f1, v4.trans f2⟩
    · rw [if_neg hok, if_neg hok]
      refine ⟨rfl, fun _ => ?_⟩
      obtain ⟨r1, r2, r3, r4⟩ := retry_frame now { st with head := getLatest st } p peers
      exact ⟨r1, r2, r3, r4⟩
  · rw [if_neg hne, if_neg hne]
    have hprev : p.prev = getLatest st := not_not.mp hne
    have hlat : getLatest ({ st with head := getLatest st } : Node) =
        ({ st with head := getLatest st } : Node).head := getLatest_cache st
    constructor
    · exact validateBody_outcome verify sign myPub peers _ p hlat hprev
    · intro h
      exact validateBody_state verify sign myPub peers _ p h

/-- C4 witness: on a concrete staked node, a well-signed empty block on the
local head follows the checklist to a vote, and a badly signed block is
dropped with the vote set untouched. -/
theorem on_proposed_block_validation_order_witness :
    (on_proposed_block verifyOk signNull "me" 0 ["p1"] nodeStaked emptyBlockOnAA).2 =
      validationSpec verifyOk "me" 0 ["p1"] nodeStaked emptyBlockOnAA ∧
    (on_proposed_block verifyBad signNull "me" 0 ["p1"] nodeStaked emptyBlockOnAA).1.votes =
      nodeStaked.votes ∧
    (on_proposed_block verifyBad signNull "me" 0 ["p1"] nodeStaked emptyBlockOnAA).2 =
      BlockOutcome.dropInvalidSig := by
  refine ⟨(on_proposed_block_validation_order verifyOk signNull "me" 0 ["p1"] nodeStaked
    emptyBlockOnAA).1, ?_, by decide⟩
  exact ((on_proposed_block_validation_order verifyBad signNull "me" 0 ["p1"] nodeStaked
    emptyBlockOnAA).2 (by decide)).1

/-- C1 witness: with seed `b""`, participant `b"b"` and enumerated peer
`b"a"`, the participant's hash is the lowest, so it proposes — for an
arbitrary `total_stake` of 7. -/
theorem lottery_selection_iff_lowest_hash_witness :
    lottery_selection [] [98] 7 [[97]] = true :=
  (lottery_selection_iff_lowest_hash [] [98] 7 [[97]]).mpr (by decide)

/-- C10 witness: the selection agrees across two very different
`total_stake` values on a concrete seed, id and peer list. -/
theorem lottery_selection_stake_independent_witness :
    lottery_selection [] [98] 1 [[97]] = lottery_selection [] [98] 1000000 [[97]] :=
  (lottery_selection_stake_independent [] [98] 1 1000000 [[97]]).1

/-- C9 witness: the walk-back properties at the concrete fork ledger. -/
theorem get_chain_from_hash_walk_back_witness :
    (get_chain_from_hash storeFork "bb" 100).length ≤ 101 ∧
    chainLinked storeFork (get_chain_from_hash storeFork "bb" 100) :=
  ⟨(get_chain_from_hash_walk_back storeFork "bb" 100).1,
   (get_chain_from_hash_walk_back storeFork "bb" 100).2.1⟩

end ChessChain


